import Mathlib

/-!
Verification of azure-cert-watchman: expiry evaluation, name extraction and
configuration.

A shallow embedding of `main.go`.  Go strings are byte sequences, instants are
nanosecond counts, `time.Duration` is a 64-bit nanosecond count, and the
`float64` arithmetic of `Duration.Hours() / 24` is modelled exactly (binary64,
round to nearest, ties to even) on dyadic numbers.  Console output is a list
of structured lines, one constructor per print statement of the source.
-/

namespace CertWatchman

/-! ## Constants and basic types -/

/-- Threshold of the WARNING class, `WarningDays` in `main.go`. -/
def WarningDays : Int := 30

/-- Threshold of the CRITICAL class, `CriticalDays` in `main.go`. -/
def CriticalDays : Int := 7

/-- A Go string: an immutable sequence of bytes. -/
abbrev GoString := List UInt8

/-- The bytes (UTF-8) of a string literal. -/
def goStr (s : String) : GoString := s.toUTF8.data.toList

/-- An instant, `time.Time`, as nanoseconds since the Unix epoch. -/
abbrev Time := Int

/-- A `time.Duration`: a signed 64-bit count of nanoseconds. -/
abbrev Duration := Int

/-- Smallest value of `time.Duration`. -/
def minDuration : Duration := -(2 ^ 63)

/-- Largest value of `time.Duration`. -/
def maxDuration : Duration := 2 ^ 63 - 1

/-- One hour, `time.Hour`, in nanoseconds. -/
def Hour : Duration := 3600000000000

/-- The instant difference `t.Sub(u)`: `t - u`, saturated to the range of
`time.Duration` as the standard library does. -/
def Time.Sub (t u : Time) : Duration :=
  if t - u < minDuration then minDuration
  else if maxDuration < t - u then maxDuration
  else t - u

/-! ## binary64 arithmetic used by `Duration.Hours() / 24` -/

/-- A finite binary64 value `mant * 2 ^ exp`. -/
structure Float64 where
  mant : Int
  exp : Int
deriving DecidableEq, Repr

/-- Position of the highest set bit of `n` (0 for `n < 2`), with the
recursion driven by `fuel`. -/
def log2Fuel : Nat → Nat → Nat
  | 0, _ => 0
  | fuel + 1, n => if n < 2 then 0 else log2Fuel fuel (n / 2) + 1

/-- Position of the highest set bit of `n`. -/
def log2 (n : Nat) : Nat := log2Fuel n n

/-- The exponent `k` with `2 ^ k ≤ a / q < 2 ^ (k + 1)`, for positive `a`
and `q`: the difference of the two bit positions, lowered by one when the
quotient is below that power of two. -/
def binaryExponent (a q : Nat) : Int :=
  let k0 : Int := (log2 a : Int) - (log2 q : Int)
  if a * 2 ^ (-k0).toNat < q * 2 ^ k0.toNat then k0 - 1 else k0

/-- The integer nearest to `n / d`, ties to the even one. -/
def roundHalfEven (n d : Nat) : Nat :=
  if d < 2 * (n % d) ∨ (2 * (n % d) = d ∧ n / d % 2 = 1) then n / d + 1 else n / d

/-- The binary64 nearest to the rational `p / q` (`0 < q`), ties to even:
the exponent is chosen so that the significand has 53 bits (or is the
subnormal exponent `-1074`), and the scaled quotient is rounded to an
integer.  Infinities are not represented: the operands of the program are
below `2 ^ 63` in magnitude. -/
def roundRatio (p : Int) (q : Nat) : Float64 :=
  if p = 0 ∨ q = 0 then ⟨0, 0⟩
  else
    let a := p.natAbs
    let e : Int := max (binaryExponent a q - 52) (-1074)
    ⟨p.sign * (roundHalfEven (a * 2 ^ (-e).toNat) (q * 2 ^ e.toNat) : Int), e⟩

/-- The conversion `float64(n)` of an integer. -/
def Float64.ofInt (n : Int) : Float64 := roundRatio n 1

/-- The sum `x + y`, rounded. -/
def Float64.add (x y : Float64) : Float64 :=
  let e := min x.exp y.exp
  let p := x.mant * 2 ^ (x.exp - e).toNat + y.mant * 2 ^ (y.exp - e).toNat
  roundRatio (p * 2 ^ e.toNat) (2 ^ (-e).toNat)

/-- The quotient `x / c`, rounded, for a positive integer constant `c` that
binary64 represents exactly (the two divisors of the source, `60*60*1e9`
and `24`, are such constants). -/
def Float64.divConst (x : Float64) (c : Nat) : Float64 :=
  roundRatio (x.mant * 2 ^ x.exp.toNat) (c * 2 ^ (-x.exp).toNat)

/-- The conversion `int(x)`: the fraction is discarded (truncation toward
zero). -/
def Float64.toInt (x : Float64) : Int :=
  Int.tdiv (x.mant * 2 ^ x.exp.toNat) (2 ^ (-x.exp).toNat)

/-- The method `Duration.Hours` of the standard library:
`hour := d / Hour; nsec := d % Hour;`
`return float64(hour) + float64(nsec)/(60*60*1e9)`,
with Go's truncated integer division and remainder. -/
def Duration.Hours (d : Duration) : Float64 :=
  let hour := Int.tdiv d Hour
  let nsec := Int.tmod d Hour
  Float64.add (Float64.ofInt hour) (Float64.divConst (Float64.ofInt nsec) 3600000000000)

/-- The expression `int(d.Hours() / 24)`. -/
def Duration.days (d : Duration) : Int :=
  Float64.toInt (Float64.divConst (Duration.Hours d) 24)

/-- The expression `int(expiryTime.Sub(now).Hours() / 24)` of
`checkCertificateExpiry`. -/
def daysUntilExpiry (now expiryTime : Time) : Int :=
  Duration.days (Time.Sub expiryTime now)

/-- The rational number a binary64 value stands for (used in statements
only). -/
def Float64.val (x : Float64) : ℚ := x.mant * (2 : ℚ) ^ x.exp

/-- The negated value (used in statements only). -/
def Float64.neg (x : Float64) : Float64 := ⟨-x.mant, x.exp⟩

/-! ## Reference quantities used in the statements -/

/-- One day, 24 hours, in nanoseconds. -/
def Day : Duration := 86400000000000

/-- The day count in the words of the specification:
`floor((expiry - now) / 24h)`. -/
def specDaysUntilExpiry (now expiryTime : Time) : Int :=
  Int.fdiv (expiryTime - now) Day

/-! ## Data model -/

/-- The attribute record of a certificate (`azcertificates.CertificateAttributes`):
the two optional fields the program reads. -/
structure CertificateAttributes where
  Expires : Option Time
  Enabled : Option Bool
deriving DecidableEq, Repr

/-- One entry of a listing page (`azcertificates.CertificateProperties`): an
optional resource identifier and an optional attribute record. -/
structure CertificateItem where
  ID : Option GoString
  Attributes : Option CertificateAttributes
deriving DecidableEq, Repr

/-- The configuration record `Config`. -/
structure Config where
  VaultURI : GoString
  ClientID : GoString
  TenantID : GoString
  ClientSecret : GoString
  CertName : GoString
deriving DecidableEq, Repr

/-- The classification outcomes of the expiry evaluator. -/
inductive Classification where
  | NoExpiry
  | Disabled
  | Expired
  | Critical
  | Warning
  | Healthy
deriving DecidableEq, Repr

/-- A line written to standard output; one constructor for each print
statement of `main.go`, with the arguments of its format string (the expiry
instant stands for its formatted date). -/
inductive Line where
  | noExpiry (certName : GoString)
  | disabled (certName : GoString)
  | expired (certName : GoString) (daysAgo : Int)
  | critical (certName : GoString) (days : Int) (expiryTime : Time)
  | warning (certName : GoString) (days : Int) (expiryTime : Time)
  | healthy (certName : GoString) (days : Int) (expiryTime : Time)
  | allValid (days : Int)
deriving DecidableEq, Repr

/-- The classification a per-certificate line reports; the aggregate line
reports none. -/
def Line.classification : Line → Option Classification
  | .noExpiry _ => some .NoExpiry
  | .disabled _ => some .Disabled
  | .expired _ _ => some .Expired
  | .critical _ _ _ => some .Critical
  | .warning _ _ _ => some .Warning
  | .healthy _ _ _ => some .Healthy
  | .allValid _ => none

/-! ## Configuration -/

/-- The function `loadConfig`: `flags` holds the five values left in the record
by `flag.Parse` (the empty string when a flag is not given) and `getenv` is
`os.Getenv`. -/
def loadConfig (flags : Config) (getenv : String → GoString) : Config :=
  let config := flags
  let config := if config.VaultURI = [] then
    { config with VaultURI := getenv "AZURE_KEY_VAULT_URI" } else config
  let config := if config.ClientID = [] then
    { config with ClientID := getenv "AZURE_CLIENT_ID" } else config
  let config := if config.TenantID = [] then
    { config with TenantID := getenv "AZURE_TENANT_ID" } else config
  let config := if config.ClientSecret = [] then
    { config with ClientSecret := getenv "AZURE_CLIENT_SECRET" } else config
  let config := if config.CertName = [] then
    { config with CertName := getenv "AZURE_KEYVAULT_CERT_NAME" } else config
  config

/-- The function `validateConfig`: `.error msg` for `fmt.Errorf(msg)`, `.ok ()`
for `nil`. -/
def validateConfig (config : Config) : Except String Unit :=
  if config.VaultURI = [] then .error "AZURE_KEY_VAULT_URI is required"
  else if config.ClientID = [] then .error "AZURE_CLIENT_ID is required"
  else if config.TenantID = [] then .error "AZURE_TENANT_ID is required"
  else if config.ClientSecret = [] then .error "AZURE_CLIENT_SECRET is required"
  else .ok ()

/-! ## Expiry evaluator -/

/-- The function `checkCertificateExpiry`; `now` is the value `time.Now()`
returns in it.  The result is the printed line and the returned flag. -/
def checkCertificateExpiry (now : Time) (certName : GoString)
    (attrs : Option CertificateAttributes) : Line × Bool :=
  match attrs with
  | none => (.noExpiry certName, false)
  | some a =>
    match a.Expires with
    | none => (.noExpiry certName, false)
    | some expiryTime =>
      let days := daysUntilExpiry now expiryTime
      if a.Enabled = some false then (.disabled certName, false)
      else if days < 0 then (.expired certName (-days), true)
      else if days < CriticalDays then (.critical certName days expiryTime, true)
      else if days < WarningDays then (.warning certName days expiryTime, true)
      else (.healthy certName days expiryTime, false)

/-- The loop of `getCertNameFromID`; the counter is `i + 1`, so the loop
ends at counter `0`. -/
def getCertNameFromID.loop (id : GoString) : Nat → GoString
  | 0 => id
  | i + 1 => if id[i]? = some 47 then id.drop (i + 1) else getCertNameFromID.loop id i

/-- The function `getCertNameFromID`: scan from the last byte down for `'/'`
(byte 47) and return what follows it, or the whole string. -/
def getCertNameFromID (id : GoString) : GoString :=
  getCertNameFromID.loop id id.length

/-! ## Orchestration -/

/-- The variables of the listing loop of `checkAllCertificates`: the flag
`hasIssues`, the number of entries visited so far, and the lines printed. -/
structure LoopState where
  hasIssues : Bool
  visited : Nat
  out : List Line
deriving DecidableEq, Repr

/-- The body of the inner loop of `checkAllCertificates` for one entry; `clock k`
is what `time.Now()` returns while the entry visited after `k` others is
checked. -/
def checkEntry (clock : Nat → Time) (st : LoopState) (cert : CertificateItem) : LoopState :=
  match cert.ID, cert.Attributes with
  | some id, some attrs =>
    let certName := getCertNameFromID id
    let r := checkCertificateExpiry (clock st.visited) certName (some attrs)
    { hasIssues := if r.2 then true else st.hasIssues
      visited := st.visited + 1
      out := st.out ++ [r.1] }
  | _, _ => { st with visited := st.visited + 1 }

/-- The function `checkAllCertificates` over the pages the pager returns: the
lines it prints. -/
def checkAllCertificates (clock : Nat → Time) (pages : List (List CertificateItem)) :
    List Line :=
  let st := pages.foldl (fun st page => page.foldl (checkEntry clock) st)
    { hasIssues := false, visited := 0, out := [] }
  if !st.hasIssues then st.out ++ [.allValid WarningDays] else st.out

/-- The function `checkSingleCertificate` for the attributes `GetCertificate`
returns: the line it prints. -/
def checkSingleCertificate (now : Time) (certName : GoString)
    (attrs : Option CertificateAttributes) : List Line :=
  [(checkCertificateExpiry now certName attrs).1]

/-! ## binary64 rounding: bounds -/

/-- The bit position found with enough fuel brackets `n` between two powers of
two. -/
theorem log2Fuel_spec (fuel n : Nat) (h : n ≤ fuel) (hn : n ≠ 0) :
    2 ^ log2Fuel fuel n ≤ n ∧ n < 2 ^ (log2Fuel fuel n + 1) := by
  induction fuel generalizing n with
  | zero => omega
  | succ f ih =>
    unfold log2Fuel
    split_ifs with h2
    · have : n = 1 := by omega
      subst this; simp
    · have hd : n / 2 ≤ f := by omega
      have hd0 : n / 2 ≠ 0 := by omega
      obtain ⟨a, b⟩ := ih (n / 2) hd hd0
      constructor
      · rw [pow_succ]; omega
      · rw [pow_succ]; omega

/-- The bit position brackets `n` between two powers of two. -/
theorem log2_spec (n : Nat) (hn : n ≠ 0) : 2 ^ log2 n ≤ n ∧ n < 2 ^ (log2 n + 1) :=
  log2Fuel_spec n n (le_refl n) hn

/-- A power of two with integer exponent as a quotient of two natural powers. -/
theorem two_zpow_split (e : Int) :
    (2 : ℚ) ^ e = (2 : ℚ) ^ e.toNat / (2 : ℚ) ^ (-e).toNat := by
  rcases le_total 0 e with h | h
  · have h1 : (-e).toNat = 0 := by omega
    have h2 : (e.toNat : Int) = e := Int.toNat_of_nonneg h
    rw [h1, pow_zero, div_one, ← zpow_natCast, h2]
  · have h1 : e.toNat = 0 := by omega
    have h2 : ((-e).toNat : Int) = -e := Int.toNat_of_nonneg (by omega)
    rw [h1, pow_zero, one_div, ← zpow_natCast, h2, zpow_neg, inv_inv]

/-- The exponent found for `a / q` is not above its binary logarithm. -/
theorem binaryExponent_le (a q : Nat) (ha : a ≠ 0) (hq : q ≠ 0) :
    (2 : ℚ) ^ binaryExponent a q ≤ (a : ℚ) / q := by
  have hq0 : (0 : ℚ) < q := by exact_mod_cast Nat.pos_of_ne_zero hq
  unfold binaryExponent
  simp only
  split_ifs with h
  · obtain ⟨h1, _⟩ := log2_spec a ha
    obtain ⟨_, h2⟩ := log2_spec q hq
    have e1 : ((log2 a : Int) - (log2 q : Int) - 1) = (log2 a : Int) - ((log2 q + 1 : Nat) : Int) := by
      push_cast; ring
    rw [e1, zpow_sub₀ (by norm_num), zpow_natCast, zpow_natCast]
    have h1' : (2 : ℚ) ^ log2 a ≤ a := by exact_mod_cast h1
    have h2' : (q : ℚ) ≤ 2 ^ (log2 q + 1) := by exact_mod_cast h2.le
    exact div_le_div₀ (by positivity) h1' hq0 h2'
  · rw [two_zpow_split, div_le_div_iff₀ (by positivity) hq0]
    have := not_lt.1 h
    have : ((q * 2 ^ ((log2 a : Int) - (log2 q : Int)).toNat : Nat) : ℚ) ≤
        ((a * 2 ^ (-((log2 a : Int) - (log2 q : Int))).toNat : Nat) : ℚ) := by
      exact_mod_cast this
    push_cast at this
    linarith

/-- The exponent found for `a / q` is its binary logarithm: the quotient is
below the next power of two. -/
theorem binaryExponent_lt (a q : Nat) (ha : a ≠ 0) (hq : q ≠ 0) :
    (a : ℚ) / q < (2 : ℚ) ^ (binaryExponent a q + 1) := by
  have hq0 : (0 : ℚ) < q := by exact_mod_cast Nat.pos_of_ne_zero hq
  unfold binaryExponent
  simp only
  split_ifs with h
  · rw [sub_add_cancel, two_zpow_split, div_lt_div_iff₀ hq0 (by positivity)]
    have : ((a * 2 ^ (-((log2 a : Int) - (log2 q : Int))).toNat : Nat) : ℚ) <
        ((q * 2 ^ ((log2 a : Int) - (log2 q : Int)).toNat : Nat) : ℚ) := by
      exact_mod_cast h
    push_cast at this
    linarith
  · obtain ⟨_, h1⟩ := log2_spec a ha
    obtain ⟨h2, _⟩ := log2_spec q hq
    have e1 : ((log2 a : Int) - (log2 q : Int) + 1) = ((log2 a + 1 : Nat) : Int) - (log2 q : Int) := by
      push_cast; ring
    rw [e1, zpow_sub₀ (by norm_num), zpow_natCast, zpow_natCast]
    have h1' : (a : ℚ) < 2 ^ (log2 a + 1) := by exact_mod_cast h1
    have h2' : (2 : ℚ) ^ log2 q ≤ q := by exact_mod_cast h2
    exact div_lt_div₀ h1' h2' (by positivity) (by positivity)

/-- The rounded quotient is within one half of the exact quotient. -/
theorem roundHalfEven_near (n d : Nat) (hd : 0 < d) :
    2 * n ≤ (2 * roundHalfEven n d + 1) * d ∧ 2 * roundHalfEven n d * d ≤ 2 * n + d := by
  have hdm := Nat.div_add_mod n d
  have hlt := Nat.mod_lt n hd
  have hcomm : d * (n / d) = n / d * d := Nat.mul_comm _ _
  unfold roundHalfEven
  split_ifs with hr
  · constructor
    · have : (2 * (n / d + 1) + 1) * d = 2 * (n / d * d) + 3 * d := by ring
      omega
    · have : 2 * (n / d + 1) * d = 2 * (n / d * d) + 2 * d := by ring
      rcases hr with hr | ⟨hr, _⟩ <;> omega
  · constructor
    · have : (2 * (n / d) + 1) * d = 2 * (n / d * d) + d := by ring
      have hle : 2 * (n % d) ≤ d := by
        by_contra hc
        exact hr (Or.inl (by omega))
      omega
    · have : 2 * (n / d) * d = 2 * (n / d * d) := by ring
      omega

/-- Comparison of `a / q` with `N * 2 ^ e` from above, on natural numbers. -/
theorem ratio_le_iff (a q : Nat) (hq : q ≠ 0) (N : Nat) (e : Int) :
    (a : ℚ) / q ≤ N * (2 : ℚ) ^ e ↔ a * 2 ^ (-e).toNat ≤ N * (q * 2 ^ e.toNat) := by
  have hq0 : (0 : ℚ) < q := by exact_mod_cast Nat.pos_of_ne_zero hq
  have hB : (0 : ℚ) < 2 ^ (-e).toNat := by positivity
  rw [two_zpow_split, ← mul_div_assoc, div_le_div_iff₀ hq0 hB]
  constructor
  · intro h
    have : ((a * 2 ^ (-e).toNat : Nat) : ℚ) ≤ ((N * (q * 2 ^ e.toNat) : Nat) : ℚ) := by
      push_cast; linarith
    exact_mod_cast this
  · intro h
    have : ((a * 2 ^ (-e).toNat : Nat) : ℚ) ≤ ((N * (q * 2 ^ e.toNat) : Nat) : ℚ) := by
      exact_mod_cast h
    push_cast at this
    linarith

/-- Comparison of `a / q` with `N * 2 ^ e` from below, on natural numbers. -/
theorem le_ratio_iff (a q : Nat) (hq : q ≠ 0) (N : Nat) (e : Int) :
    (N : ℚ) * (2 : ℚ) ^ e ≤ (a : ℚ) / q ↔ N * (q * 2 ^ e.toNat) ≤ a * 2 ^ (-e).toNat := by
  have hq0 : (0 : ℚ) < q := by exact_mod_cast Nat.pos_of_ne_zero hq
  have hB : (0 : ℚ) < 2 ^ (-e).toNat := by positivity
  rw [two_zpow_split, ← mul_div_assoc, div_le_div_iff₀ hB hq0]
  constructor
  · intro h
    have : ((N * (q * 2 ^ e.toNat) : Nat) : ℚ) ≤ ((a * 2 ^ (-e).toNat : Nat) : ℚ) := by
      push_cast; linarith
    exact_mod_cast this
  · intro h
    have : ((N * (q * 2 ^ e.toNat) : Nat) : ℚ) ≤ ((a * 2 ^ (-e).toNat : Nat) : ℚ) := by
      exact_mod_cast h
    push_cast at this
    linarith

/-- Rounding a quotient that is at most the integer `N` gives at most `N`. -/
theorem roundHalfEven_le (n d N : Nat) (hd : 0 < d) (h : n ≤ N * d) :
    roundHalfEven n d ≤ N := by
  have hm : n / d ≤ N := Nat.div_le_of_le_mul (by rw [Nat.mul_comm]; exact h)
  unfold roundHalfEven
  split_ifs with hr
  · rcases Nat.lt_or_ge (n / d) N with hlt | hge
    · omega
    · have hmN : n / d = N := le_antisymm hm hge
      have hdm := Nat.div_add_mod n d
      rw [hmN] at hdm
      have hr0 : n % d = 0 := by
        have : d * N = N * d := Nat.mul_comm _ _
        omega
      rw [hr0] at hr
      rcases hr with hr | ⟨hr, _⟩ <;> omega
  · exact hm

/-- Rounding a quotient that is at least the integer `N` gives at least `N`. -/
theorem le_roundHalfEven (n d N : Nat) (hd : 0 < d) (h : N * d ≤ n) :
    N ≤ roundHalfEven n d := by
  have hm : N ≤ n / d := (Nat.le_div_iff_mul_le hd).2 h
  unfold roundHalfEven
  split_ifs <;> omega

/-- The value of the rounding of a positive ratio. -/
theorem roundRatio_val_pos (a q : Nat) (ha : a ≠ 0) (hq : q ≠ 0) :
    (roundRatio a q).val =
      (roundHalfEven (a * 2 ^ (-(max (binaryExponent a q - 52) (-1074))).toNat)
        (q * 2 ^ (max (binaryExponent a q - 52) (-1074)).toNat) : ℚ) *
        (2 : ℚ) ^ (max (binaryExponent a q - 52) (-1074)) := by
  have ha' : (a : Int) ≠ 0 := by exact_mod_cast ha
  have hs : Int.sign (a : Int) = 1 := Int.sign_eq_one_of_pos (by omega)
  simp [roundRatio, Float64.val, ha, hq, hs]

/-- The value `M * 2 ^ E` written with a smaller exponent `e`. -/
theorem rescale (M : Nat) (E e : Int) (h : e ≤ E) :
    ((M * 2 ^ (E - e).toNat : Nat) : ℚ) * (2 : ℚ) ^ e = M * (2 : ℚ) ^ E := by
  have h1 : ((E - e).toNat : Int) = E - e := Int.toNat_of_nonneg (by omega)
  have h2 : (2 : ℚ) ^ (E - e).toNat = (2 : ℚ) ^ (E - e) := by
    rw [← zpow_natCast, h1]
  push_cast
  rw [h2, mul_assoc, ← zpow_add₀ (by norm_num)]
  congr 2
  ring

/-- Rounding never crosses a binary64 value from below: a positive ratio that
is at most `M * 2 ^ E`, with `M < 2 ^ 53` and `-1074 ≤ E`, rounds to at most
that value. -/
theorem roundRatio_le_of_pos (a q : Nat) (ha : a ≠ 0) (hq : q ≠ 0) (M : Nat) (E : Int)
    (hM : M < 2 ^ 53) (hE : -1074 ≤ E) (h : (a : ℚ) / q ≤ M * (2 : ℚ) ^ E) :
    (roundRatio a q).val ≤ M * (2 : ℚ) ^ E := by
  have hk := binaryExponent_le a q ha hq
  have hlt : (2 : ℚ) ^ binaryExponent a q < (2 : ℚ) ^ (53 + E) := by
    have hM' : (M : ℚ) < 2 ^ 53 := by exact_mod_cast hM
    have hpos : (0 : ℚ) < (2 : ℚ) ^ E := by positivity
    calc (2 : ℚ) ^ binaryExponent a q ≤ M * (2 : ℚ) ^ E := hk.trans h
      _ < 2 ^ 53 * (2 : ℚ) ^ E := by nlinarith
      _ = (2 : ℚ) ^ (53 + E) := by
        rw [zpow_add₀ (by norm_num)]; norm_num
  have hkE : binaryExponent a q < 53 + E := (zpow_lt_zpow_iff_right₀ (by norm_num)).1 hlt
  have he : max (binaryExponent a q - 52) (-1074) ≤ E := max_le (by omega) hE
  rw [roundRatio_val_pos a q ha hq, ← rescale M E _ he]
  have hd : 0 < q * 2 ^ (max (binaryExponent a q - 52) (-1074)).toNat :=
    Nat.mul_pos (Nat.pos_of_ne_zero hq) (by positivity)
  have hn := (ratio_le_iff a q hq (M * 2 ^ (E - max (binaryExponent a q - 52) (-1074)).toNat)
    (max (binaryExponent a q - 52) (-1074))).1 (by rw [rescale M E _ he]; exact h)
  have := roundHalfEven_le _ _ _ hd hn
  have hc : ((roundHalfEven (a * 2 ^ (-(max (binaryExponent a q - 52) (-1074))).toNat)
        (q * 2 ^ (max (binaryExponent a q - 52) (-1074)).toNat) : Nat) : ℚ) ≤
      ((M * 2 ^ (E - max (binaryExponent a q - 52) (-1074)).toNat : Nat) : ℚ) := by
    exact_mod_cast this
  exact mul_le_mul_of_nonneg_right hc (by positivity)

/-- Rounding never crosses a binary64 value from above: a positive ratio that
is at least `M * 2 ^ E`, with `M < 2 ^ 53` and `-1074 ≤ E`, rounds to at least
that value. -/
theorem le_roundRatio_of_pos (a q : Nat) (ha : a ≠ 0) (hq : q ≠ 0) (M : Nat) (E : Int)
    (hM : M < 2 ^ 53) (hE : -1074 ≤ E) (h : (M : ℚ) * (2 : ℚ) ^ E ≤ (a : ℚ) / q) :
    (M : ℚ) * (2 : ℚ) ^ E ≤ (roundRatio a q).val := by
  have hk := binaryExponent_le a q ha hq
  rw [roundRatio_val_pos a q ha hq]
  have hd : 0 < q * 2 ^ (max (binaryExponent a q - 52) (-1074)).toNat :=
    Nat.mul_pos (Nat.pos_of_ne_zero hq) (by positivity)
  rcases le_or_lt (max (binaryExponent a q - 52) (-1074)) E with he | he
  · rw [← rescale M E _ he]
    have hn := (le_ratio_iff a q hq
      (M * 2 ^ (E - max (binaryExponent a q - 52) (-1074)).toNat)
      (max (binaryExponent a q - 52) (-1074))).1 (by rw [rescale M E _ he]; exact h)
    have := le_roundHalfEven _ _ _ hd hn
    have hc : ((M * 2 ^ (E - max (binaryExponent a q - 52) (-1074)).toNat : Nat) : ℚ) ≤
        ((roundHalfEven (a * 2 ^ (-(max (binaryExponent a q - 52) (-1074))).toNat)
          (q * 2 ^ (max (binaryExponent a q - 52) (-1074)).toNat) : Nat) : ℚ) := by
      exact_mod_cast this
    exact mul_le_mul_of_nonneg_right hc (by positivity)
  · have hek : max (binaryExponent a q - 52) (-1074) = binaryExponent a q - 52 := by
      rcases max_cases (binaryExponent a q - 52) (-1074) with ⟨h1, _⟩ | ⟨h1, _⟩
      · exact h1
      · omega
    rw [hek] at he hd ⊢
    have h52 : ((2 ^ 52 : Nat) : ℚ) * (2 : ℚ) ^ (binaryExponent a q - 52) ≤ (a : ℚ) / q := by
      have : ((2 ^ 52 : Nat) : ℚ) * (2 : ℚ) ^ (binaryExponent a q - 52) =
          (2 : ℚ) ^ binaryExponent a q := by
        rw [zpow_sub₀ (by norm_num)]
        push_cast
        field_simp
        norm_num
        ring
      rw [this]; exact hk
    have hn := (le_ratio_iff a q hq (2 ^ 52) (binaryExponent a q - 52)).1 h52
    have := le_roundHalfEven _ _ _ hd hn
    have hc : ((2 ^ 52 : Nat) : ℚ) ≤
        ((roundHalfEven (a * 2 ^ (-(binaryExponent a q - 52)).toNat)
          (q * 2 ^ (binaryExponent a q - 52).toNat) : Nat) : ℚ) := by
      exact_mod_cast this
    have hM' : (M : ℚ) ≤ 2 ^ 53 := by exact_mod_cast hM.le
    have hpE : (2 : ℚ) ^ E ≤ (2 : ℚ) ^ (binaryExponent a q - 53) :=
      zpow_le_zpow_right₀ (by norm_num) (by omega)
    calc (M : ℚ) * (2 : ℚ) ^ E ≤ 2 ^ 53 * (2 : ℚ) ^ (binaryExponent a q - 53) :=
          mul_le_mul hM' hpE (by positivity) (by positivity)
      _ = ((2 ^ 52 : Nat) : ℚ) * (2 : ℚ) ^ (binaryExponent a q - 52) := by
          rw [zpow_sub₀ (by norm_num), zpow_sub₀ (by norm_num)]
          push_cast
          field_simp
          norm_num
          ring
      _ ≤ _ := mul_le_mul_of_nonneg_right hc (by positivity)

/-- The rounding of a positive ratio is a binary64 value nearest to it: the
error is at most half a unit of the last place, the significand has at most 53
bits, and it has exactly 53 bits unless the exponent is the subnormal one. -/
theorem roundRatio_nearest (a q : Nat) (ha : a ≠ 0) (hq : q ≠ 0) :
    |(roundRatio a q).val - (a : ℚ) / q| ≤ (2 : ℚ) ^ (roundRatio a q).exp / 2 ∧
    0 ≤ (roundRatio a q).mant ∧ (roundRatio a q).mant ≤ 2 ^ 53 ∧
    ((roundRatio a q).exp = -1074 ∨ 2 ^ 52 ≤ (roundRatio a q).mant) := by
  have ha' : (a : Int) ≠ 0 := by exact_mod_cast ha
  have hs : Int.sign (a : Int) = 1 := Int.sign_eq_one_of_pos (by omega)
  have hq0 : (0 : ℚ) < q := by exact_mod_cast Nat.pos_of_ne_zero hq
  have hexp : (roundRatio a q).exp = max (binaryExponent a q - 52) (-1074) := by
    simp [roundRatio, ha, hq]
  have hmant : (roundRatio a q).mant =
      (roundHalfEven (a * 2 ^ (-(max (binaryExponent a q - 52) (-1074))).toNat)
        (q * 2 ^ (max (binaryExponent a q - 52) (-1074)).toNat) : Int) := by
    simp [roundRatio, ha, hq, hs]
  rw [roundRatio_val_pos a q ha hq, hexp, hmant]
  have hmax1 := le_max_left (binaryExponent a q - 52) (-1074)
  have hmax2 := max_cases (binaryExponent a q - 52) (-1074)
  generalize max (binaryExponent a q - 52) (-1074) = e at *
  have hd : 0 < q * 2 ^ e.toNat := Nat.mul_pos (Nat.pos_of_ne_zero hq) (by positivity)
  obtain ⟨hn1, hn2⟩ := roundHalfEven_near (a * 2 ^ (-e).toNat) (q * 2 ^ e.toNat) hd
  generalize hR : roundHalfEven (a * 2 ^ (-e).toNat) (q * 2 ^ e.toNat) = R at *
  have hk1 := binaryExponent_le a q ha hq
  have hk2 := binaryExponent_lt a q ha hq
  refine ⟨?_, by positivity, ?_, ?_⟩
  · have hA : (0 : ℚ) < 2 ^ e.toNat := by positivity
    have hB : (0 : ℚ) < 2 ^ (-e).toNat := by positivity
    have c1 : ((2 * (a * 2 ^ (-e).toNat) : Nat) : ℚ) ≤ (((2 * R + 1) * (q * 2 ^ e.toNat) : Nat) : ℚ) := by
      exact_mod_cast hn1
    have c2 : ((2 * R * (q * 2 ^ e.toNat) : Nat) : ℚ) ≤ ((2 * (a * 2 ^ (-e).toNat) + q * 2 ^ e.toNat : Nat) : ℚ) := by
      exact_mod_cast hn2
    push_cast at c1 c2
    rw [two_zpow_split e, abs_le]
    constructor
    · rw [neg_le_sub_iff_le_add, div_le_iff₀ hq0]
      have : ((R : ℚ) * (2 ^ e.toNat / 2 ^ (-e).toNat) + 2 ^ e.toNat / 2 ^ (-e).toNat / 2) * q =
          ((2 * R + 1) * (q * 2 ^ e.toNat)) / (2 * 2 ^ (-e).toNat) := by
        field_simp; ring
      rw [this, le_div_iff₀ (by positivity)]
      linarith
    · rw [sub_le_iff_le_add, ← sub_le_iff_le_add', le_div_iff₀ hq0]
      have : ((R : ℚ) * (2 ^ e.toNat / 2 ^ (-e).toNat) - 2 ^ e.toNat / 2 ^ (-e).toNat / 2) * q =
          (2 * R * (q * 2 ^ e.toNat) - q * 2 ^ e.toNat) / (2 * 2 ^ (-e).toNat) := by
        field_simp; ring
      rw [this, div_le_iff₀ (by positivity)]
      linarith
  · have hle : (a : ℚ) / q ≤ ((2 ^ 53 : Nat) : ℚ) * (2 : ℚ) ^ e := by
      have h53 : ((2 ^ 53 : Nat) : ℚ) * (2 : ℚ) ^ e = (2 : ℚ) ^ (53 + e) := by
        rw [zpow_add₀ (by norm_num)]; norm_num
      rw [h53]
      exact hk2.le.trans (zpow_le_zpow_right₀ (by norm_num) (by omega))
    have := roundHalfEven_le _ _ _ hd ((ratio_le_iff a q hq (2 ^ 53) e).1 hle)
    rw [hR] at this
    exact_mod_cast this
  · by_cases he : e = -1074
    · exact Or.inl he
    · right
      have hek : e = binaryExponent a q - 52 := by omega
      have hge : ((2 ^ 52 : Nat) : ℚ) * (2 : ℚ) ^ e ≤ (a : ℚ) / q := by
        have h52 : ((2 ^ 52 : Nat) : ℚ) * (2 : ℚ) ^ e = (2 : ℚ) ^ (52 + e) := by
          rw [zpow_add₀ (by norm_num)]; norm_num
        rw [h52]
        have : 52 + e = binaryExponent a q := by omega
        rw [this]; exact hk1
      have := le_roundHalfEven _ _ _ hd ((le_ratio_iff a q hq (2 ^ 52) e).1 hge)
      rw [hR] at this
      exact_mod_cast this

/-- Rounding commutes with negation. -/
theorem roundRatio_neg (p : Int) (q : Nat) : roundRatio (-p) q = (roundRatio p q).neg := by
  unfold roundRatio
  by_cases h : p = 0 ∨ q = 0
  · have h' : -p = 0 ∨ q = 0 := by rcases h with h | h <;> simp [h]
    simp [h, h', Float64.neg]
  · have h' : ¬ (-p = 0 ∨ q = 0) := by
      intro h'; apply h; rcases h' with h' | h'
      · exact Or.inl (by omega)
      · exact Or.inr h'
    simp only [h, h', if_false, Int.natAbs_neg, Int.sign_neg, Float64.neg, neg_mul]

/-- The value of a negated number. -/
theorem Float64.val_neg (x : Float64) : x.neg.val = -x.val := by
  simp [Float64.neg, Float64.val]

/-- Rounding a non-negative ratio gives a non-negative value. -/
theorem roundRatio_val_nonneg (a q : Nat) : 0 ≤ (roundRatio a q).val := by
  by_cases h : a = 0 ∨ q = 0
  · have : ((a : Int) = 0 ∨ q = 0) := by rcases h with h | h <;> simp [h]
    rw [roundRatio, if_pos this]
    simp [Float64.val]
  · push_neg at h
    rw [roundRatio_val_pos a q h.1 h.2]
    positivity

/-- Rounding never crosses a non-negative binary64 value from below. -/
theorem roundRatio_le (p : Int) (q : Nat) (hq : q ≠ 0) (M : Nat) (E : Int)
    (hM : M < 2 ^ 53) (hE : -1074 ≤ E) (h : (p : ℚ) / q ≤ M * (2 : ℚ) ^ E) :
    (roundRatio p q).val ≤ M * (2 : ℚ) ^ E := by
  rcases lt_trichotomy p 0 with hp | hp | hp
  · obtain ⟨a, rfl⟩ : ∃ a : Nat, p = -(a : Int) := ⟨p.natAbs, by omega⟩
    rw [roundRatio_neg, Float64.val_neg]
    have := roundRatio_val_nonneg a q
    have : (0 : ℚ) ≤ M * (2 : ℚ) ^ E := by positivity
    linarith
  · subst hp
    have : (roundRatio 0 q).val = 0 := by simp [roundRatio, Float64.val]
    rw [this]; positivity
  · obtain ⟨a, rfl⟩ : ∃ a : Nat, p = (a : Int) := ⟨p.natAbs, by omega⟩
    have ha : a ≠ 0 := by omega
    rw [Int.cast_natCast] at h
    exact roundRatio_le_of_pos a q ha hq M E hM hE h

/-- Rounding never crosses a non-negative binary64 value from above. -/
theorem le_roundRatio (p : Int) (q : Nat) (hq : q ≠ 0) (M : Nat) (E : Int)
    (hM : M < 2 ^ 53) (hE : -1074 ≤ E) (h : (M : ℚ) * (2 : ℚ) ^ E ≤ (p : ℚ) / q) :
    (M : ℚ) * (2 : ℚ) ^ E ≤ (roundRatio p q).val := by
  have hq0 : (0 : ℚ) < q := by exact_mod_cast Nat.pos_of_ne_zero hq
  have hc : (0 : ℚ) ≤ M * (2 : ℚ) ^ E := by positivity
  have hp0 : (0 : ℚ) ≤ p := by
    have h0 : (0 : ℚ) ≤ (p : ℚ) / q := hc.trans h
    by_contra hneg
    have : (p : ℚ) / q < 0 := div_neg_of_neg_of_pos (not_le.1 hneg) hq0
    linarith
  have hp : 0 ≤ p := by exact_mod_cast hp0
  obtain ⟨a, rfl⟩ : ∃ a : Nat, p = (a : Int) := ⟨p.natAbs, by omega⟩
  by_cases ha : a = 0
  · subst ha
    have hz : (roundRatio ((0 : Nat) : Int) q).val = 0 := by simp [roundRatio, Float64.val]
    rw [hz]
    simpa using h
  · rw [Int.cast_natCast] at h
    exact le_roundRatio_of_pos a q ha hq M E hM hE h

/-- The ratio `Float64.add` rounds is the exact sum. -/
theorem ratio_add (x y : Float64) :
    (((x.mant * 2 ^ (x.exp - min x.exp y.exp).toNat +
        y.mant * 2 ^ (y.exp - min x.exp y.exp).toNat) * 2 ^ (min x.exp y.exp).toNat : Int) : ℚ) /
      ((2 ^ (-(min x.exp y.exp)).toNat : Nat) : ℚ) = x.val + y.val := by
  have hx : ((x.exp - min x.exp y.exp).toNat : Int) = x.exp - min x.exp y.exp :=
    Int.toNat_of_nonneg (by have := min_le_left x.exp y.exp; omega)
  have hy : ((y.exp - min x.exp y.exp).toNat : Int) = y.exp - min x.exp y.exp :=
    Int.toNat_of_nonneg (by have := min_le_right x.exp y.exp; omega)
  have ex : (2 : ℚ) ^ x.exp = (2 : ℚ) ^ (x.exp - min x.exp y.exp).toNat *
      (2 : ℚ) ^ (min x.exp y.exp) := by
    rw [← zpow_natCast, hx, ← zpow_add₀ (by norm_num)]; congr 1; ring
  have ey : (2 : ℚ) ^ y.exp = (2 : ℚ) ^ (y.exp - min x.exp y.exp).toNat *
      (2 : ℚ) ^ (min x.exp y.exp) := by
    rw [← zpow_natCast, hy, ← zpow_add₀ (by norm_num)]; congr 1; ring
  unfold Float64.val
  rw [ex, ey, two_zpow_split (min x.exp y.exp)]
  push_cast
  ring

/-- The ratio `Float64.divConst` rounds is the exact quotient. -/
theorem ratio_divConst (x : Float64) (c : Nat) :
    ((x.mant * 2 ^ x.exp.toNat : Int) : ℚ) / ((c * 2 ^ (-x.exp).toNat : Nat) : ℚ) =
      x.val / c := by
  unfold Float64.val
  rw [two_zpow_split x.exp]
  push_cast
  by_cases hc : (c : ℚ) = 0
  · simp [hc]
  · field_simp
    left
    ring

/-! ### Bounds through the operations -/

/-- An integer that is at most `M < 2 ^ 53` converts to at most `M`. -/
theorem Float64.ofInt_le (n : Int) (M : Nat) (hM : M < 2 ^ 53) (h : n ≤ M) :
    (Float64.ofInt n).val ≤ M := by
  have := roundRatio_le n 1 one_ne_zero M 0 hM (by norm_num)
    (by simpa using (by exact_mod_cast h : (n : ℚ) ≤ M))
  simpa [Float64.ofInt] using this

/-- An integer that is at least `M < 2 ^ 53` converts to at least `M`. -/
theorem Float64.le_ofInt (n : Int) (M : Nat) (hM : M < 2 ^ 53) (h : (M : Int) ≤ n) :
    (M : ℚ) ≤ (Float64.ofInt n).val := by
  have := le_roundRatio n 1 one_ne_zero M 0 hM (by norm_num)
    (by simpa using (by exact_mod_cast h : (M : ℚ) ≤ n))
  simpa [Float64.ofInt] using this

/-- A sum that is exactly at most a binary64 value is at most that value
after rounding. -/
theorem Float64.add_le (x y : Float64) (M : Nat) (E : Int) (hM : M < 2 ^ 53)
    (hE : -1074 ≤ E) (h : x.val + y.val ≤ M * (2 : ℚ) ^ E) :
    (Float64.add x y).val ≤ M * (2 : ℚ) ^ E := by
  unfold Float64.add
  exact roundRatio_le _ _ (by positivity) M E hM hE (by rw [ratio_add]; exact h)

/-- A sum that is exactly at least a binary64 value is at least that value
after rounding. -/
theorem Float64.le_add (x y : Float64) (M : Nat) (E : Int) (hM : M < 2 ^ 53)
    (hE : -1074 ≤ E) (h : (M : ℚ) * (2 : ℚ) ^ E ≤ x.val + y.val) :
    (M : ℚ) * (2 : ℚ) ^ E ≤ (Float64.add x y).val := by
  unfold Float64.add
  exact le_roundRatio _ _ (by positivity) M E hM hE (by rw [ratio_add]; exact h)

/-- A quotient that is exactly at most a binary64 value is at most that value
after rounding. -/
theorem Float64.divConst_le (x : Float64) (c : Nat) (hc : c ≠ 0) (M : Nat) (E : Int)
    (hM : M < 2 ^ 53) (hE : -1074 ≤ E) (h : x.val / c ≤ M * (2 : ℚ) ^ E) :
    (Float64.divConst x c).val ≤ M * (2 : ℚ) ^ E := by
  unfold Float64.divConst
  exact roundRatio_le _ _ (Nat.mul_ne_zero hc (by positivity)) M E hM hE
    (by rw [ratio_divConst]; exact h)

/-- A quotient that is exactly at least a binary64 value is at least that
value after rounding. -/
theorem Float64.le_divConst (x : Float64) (c : Nat) (hc : c ≠ 0) (M : Nat) (E : Int)
    (hM : M < 2 ^ 53) (hE : -1074 ≤ E) (h : (M : ℚ) * (2 : ℚ) ^ E ≤ x.val / c) :
    (M : ℚ) * (2 : ℚ) ^ E ≤ (Float64.divConst x c).val := by
  unfold Float64.divConst
  exact le_roundRatio _ _ (Nat.mul_ne_zero hc (by positivity)) M E hM hE
    (by rw [ratio_divConst]; exact h)

/-- The value as a quotient of two integers. -/
theorem Float64.val_eq_div (x : Float64) :
    x.val = ((x.mant * 2 ^ x.exp.toNat : Int) : ℚ) / ((2 ^ (-x.exp).toNat : Int) : ℚ) := by
  unfold Float64.val
  rw [two_zpow_split x.exp]
  push_cast
  ring

/-- The integer conversion of a value that is at least `N` is at least `N`. -/
theorem Float64.le_toInt (x : Float64) (N : Nat) (h : (N : ℚ) ≤ x.val) :
    (N : Int) ≤ x.toInt := by
  have hB : (0 : Int) < 2 ^ (-x.exp).toNat := by positivity
  have hBq : (0 : ℚ) < ((2 ^ (-x.exp).toNat : Int) : ℚ) := by exact_mod_cast hB
  rw [Float64.val_eq_div, le_div_iff₀ hBq] at h
  have h' : (N : Int) * 2 ^ (-x.exp).toNat ≤ x.mant * 2 ^ x.exp.toNat := by exact_mod_cast h
  have hA : 0 ≤ x.mant * 2 ^ x.exp.toNat := le_trans (by positivity) h'
  unfold Float64.toInt
  rw [Int.tdiv_eq_ediv hA hB.le]
  exact (Int.le_ediv_iff_mul_le hB).2 h'

/-- The integer conversion of a value below `N` is below `N`. -/
theorem Float64.toInt_lt (x : Float64) (N : Nat) (hN : 0 < N) (h : x.val < N) :
    x.toInt < (N : Int) := by
  have hB : (0 : Int) < 2 ^ (-x.exp).toNat := by positivity
  have hBq : (0 : ℚ) < ((2 ^ (-x.exp).toNat : Int) : ℚ) := by exact_mod_cast hB
  rw [Float64.val_eq_div, div_lt_iff₀ hBq] at h
  have h' : x.mant * 2 ^ x.exp.toNat < (N : Int) * 2 ^ (-x.exp).toNat := by exact_mod_cast h
  unfold Float64.toInt
  rcases le_or_lt 0 (x.mant * 2 ^ x.exp.toNat) with hA | hA
  · rw [Int.tdiv_eq_ediv hA hB.le]
    exact (Int.ediv_lt_iff_lt_mul hB).2 h'
  · have h1 : 0 ≤ (-(x.mant * 2 ^ x.exp.toNat)).tdiv (2 ^ (-x.exp).toNat) :=
      Int.tdiv_nonneg (by omega) hB.le
    rw [Int.neg_tdiv] at h1
    omega

/-! ### Symmetry under negation -/

/-- Conversion of an integer commutes with negation. -/
theorem Float64.ofInt_neg (n : Int) : Float64.ofInt (-n) = (Float64.ofInt n).neg :=
  roundRatio_neg n 1

/-- Division by a constant commutes with negation. -/
theorem Float64.divConst_neg (x : Float64) (c : Nat) :
    Float64.divConst x.neg c = (Float64.divConst x c).neg := by
  unfold Float64.divConst
  simp only [Float64.neg, neg_mul]
  exact roundRatio_neg _ _

/-- Addition commutes with negation. -/
theorem Float64.add_neg (x y : Float64) :
    Float64.add x.neg y.neg = (Float64.add x y).neg := by
  unfold Float64.add
  simp only [Float64.neg, neg_mul, ← neg_add]
  exact roundRatio_neg _ _

/-- The integer conversion commutes with negation. -/
theorem Float64.toInt_neg (x : Float64) : x.neg.toInt = -x.toInt := by
  unfold Float64.toInt
  simp only [Float64.neg, neg_mul, Int.neg_tdiv]

/-- The truncated remainder commutes with negation of the dividend. -/
theorem neg_tmod (a b : Int) : (-a).tmod b = -(a.tmod b) := by
  rw [Int.tmod_def, Int.tmod_def, Int.neg_tdiv]
  ring

/-- The method `Hours` commutes with negation. -/
theorem Duration.Hours_neg (d : Duration) : Duration.Hours (-d) = (Duration.Hours d).neg := by
  unfold Duration.Hours
  simp only [Int.neg_tdiv, neg_tmod, Float64.ofInt_neg, Float64.divConst_neg, Float64.add_neg]

/-- The day count commutes with negation. -/
theorem Duration.days_neg (d : Duration) : Duration.days (-d) = -Duration.days d := by
  unfold Duration.days
  rw [Duration.Hours_neg, Float64.divConst_neg, Float64.toInt_neg]

/-! ### The day count of a non-negative duration -/

/-- A duration of at least `N` days counts at least `N` days. -/
theorem Duration.le_days (d : Int) (N : Nat) (hN : N < 2 ^ 48) (h : (N : Int) * Day ≤ d) :
    (N : Int) ≤ Duration.days d := by
  have hN' : N < 281474976710656 := by simpa using hN
  have hd0 : 0 ≤ d := le_trans (by unfold Day; positivity) h
  unfold Day at h
  have hhour : ((24 * N : Nat) : Int) ≤ d.tdiv Hour := by
    rw [Int.tdiv_eq_ediv hd0 (by unfold Hour; norm_num)]
    unfold Hour
    push_cast
    omega
  have hnsec : ((0 : Nat) : Int) ≤ d.tmod Hour := by
    simpa using Int.tmod_nonneg Hour hd0
  have h1 := Float64.le_ofInt _ (24 * N) (by norm_num; omega) hhour
  have h2 := Float64.le_ofInt _ 0 (by norm_num) hnsec
  have h3 : ((0 : Nat) : ℚ) * (2 : ℚ) ^ (0 : Int) ≤
      (Float64.divConst (Float64.ofInt (d.tmod Hour)) 3600000000000).val :=
    Float64.le_divConst _ _ (by norm_num) 0 0 (by norm_num) (by norm_num)
      (by simp only [Nat.cast_zero, zero_mul]; exact div_nonneg (by simpa using h2) (by norm_num))
  have h4 : ((24 * N : Nat) : ℚ) * (2 : ℚ) ^ (0 : Int) ≤ (Duration.Hours d).val := by
    unfold Duration.Hours
    refine Float64.le_add _ _ (24 * N) 0 (by norm_num; omega) (by norm_num) ?_
    simp only [Nat.cast_zero, zero_mul, zpow_zero, mul_one] at h3 ⊢
    linarith
  have h5 : ((N : Nat) : ℚ) * (2 : ℚ) ^ (0 : Int) ≤
      (Float64.divConst (Duration.Hours d) 24).val := by
    refine Float64.le_divConst _ _ (by norm_num) N 0 (by norm_num; omega) (by norm_num) ?_
    simp only [zpow_zero, mul_one] at h4 ⊢
    rw [le_div_iff₀ (by norm_num)]
    push_cast at h4 ⊢
    linarith
  exact Float64.le_toInt _ N (by simpa using h5)

/-- A non-negative duration of less than `N` days, `1 ≤ N ≤ 63`, counts less than
`N` days: rounding does not reach the next whole day. -/
theorem Duration.days_lt (d : Int) (N : Nat) (hN1 : 1 ≤ N) (hN : N ≤ 63) (h0 : 0 ≤ d)
    (h : d < (N : Int) * Day) : Duration.days d < (N : Int) := by
  unfold Day at h
  have hhour : d.tdiv Hour ≤ ((24 * N - 1 : Nat) : Int) := by
    rw [Int.tdiv_eq_ediv h0 (by unfold Hour; norm_num)]
    unfold Hour
    omega
  have hnsec : d.tmod Hour ≤ ((3599999999999 : Nat) : Int) := by
    rw [Int.tmod_eq_emod h0 (by unfold Hour; norm_num)]
    unfold Hour
    omega
  have h1 := Float64.ofInt_le _ (24 * N - 1) (by norm_num; omega) hhour
  have h2 := Float64.ofInt_le _ 3599999999999 (by norm_num) hnsec
  have h3 : (Float64.divConst (Float64.ofInt (d.tmod Hour)) 3600000000000).val ≤
      ((4398046511103 : Nat) : ℚ) * (2 : ℚ) ^ (-42 : Int) := by
    refine Float64.divConst_le _ _ (by norm_num) _ _ (by norm_num) (by norm_num) ?_
    rw [div_le_iff₀ (by norm_num)]
    refine h2.trans ?_
    norm_num
  obtain ⟨M, hMdef⟩ : ∃ M : Nat, M + 1 = 24 * N * 4398046511104 :=
    ⟨24 * N * 4398046511104 - 1, by omega⟩
  have hMq : (M : ℚ) = 24 * N * 4398046511104 - 1 := by
    have : ((M + 1 : Nat) : ℚ) = ((24 * N * 4398046511104 : Nat) : ℚ) := by rw [hMdef]
    push_cast at this
    linarith
  have hcast : ((24 * N - 1 : Nat) : ℚ) = 24 * N - 1 := by
    rw [Nat.cast_sub (by omega)]; push_cast; ring
  have h4 : (Duration.Hours d).val ≤ (M : ℚ) * (2 : ℚ) ^ (-42 : Int) := by
    unfold Duration.Hours
    refine Float64.add_le _ _ M (-42) (by norm_num; omega) (by norm_num) ?_
    rw [hMq]
    rw [hcast] at h1
    norm_num at h3 ⊢
    linarith
  obtain ⟨K, hKdef⟩ : ∃ K : Nat, K + 1 = N * 140737488355328 :=
    ⟨N * 140737488355328 - 1, by omega⟩
  have hKq : (K : ℚ) = N * 140737488355328 - 1 := by
    have : ((K + 1 : Nat) : ℚ) = ((N * 140737488355328 : Nat) : ℚ) := by rw [hKdef]
    push_cast at this
    linarith
  have h5 : (Float64.divConst (Duration.Hours d) 24).val ≤ (K : ℚ) * (2 : ℚ) ^ (-47 : Int) := by
    refine Float64.divConst_le _ _ (by norm_num) K (-47) (by norm_num; omega) (by norm_num) ?_
    rw [div_le_iff₀ (by norm_num), hKq]
    rw [hMq] at h4
    norm_num at h4 ⊢
    linarith
  refine Float64.toInt_lt _ N (by omega) (lt_of_le_of_lt h5 ?_)
  rw [hKq]
  norm_num
  linarith

/-! ### The day count against the thresholds -/

/-- The day count is negative exactly for durations of minus one day or less. -/
theorem Duration.days_neg_iff (d : Int) : Duration.days d < 0 ↔ d ≤ -86400000000000 := by
  rcases le_or_lt 0 d with h0 | h0
  · have h1 := Duration.le_days d 0 (by norm_num) (by simpa using h0)
    have hD : (0 : Int) < Day := by unfold Day; norm_num
    constructor
    · intro h; simp only [Nat.cast_zero] at h1; omega
    · intro h; omega
  · have hneg := Duration.days_neg (-d)
    rw [neg_neg] at hneg
    rw [hneg]
    constructor
    · intro h
      by_contra hc
      have := Duration.days_lt (-d) 1 le_rfl (by norm_num) (by omega)
        (by simp only [Nat.cast_one, one_mul, Day]; omega)
      simp only [Nat.cast_one] at this
      omega
    · intro h
      have := Duration.le_days (-d) 1 (by norm_num)
        (by simp only [Nat.cast_one, one_mul, Day]; omega)
      simp only [Nat.cast_one] at this
      omega

/-- The day count is below `N`, for `1 ≤ N ≤ 63`, exactly for durations of less
than `N` days. -/
theorem Duration.days_lt_iff (d : Int) (N : Nat) (hN1 : 1 ≤ N) (hN : N ≤ 63) :
    Duration.days d < (N : Int) ↔ d < (N : Int) * Day := by
  have hD : (0 : Int) < Day := by unfold Day; norm_num
  have hND : (0 : Int) < (N : Int) * Day := by positivity
  rcases le_or_lt 0 d with h0 | h0
  · constructor
    · intro h
      by_contra hc
      have := Duration.le_days d N (by norm_num; omega) (not_lt.1 hc)
      omega
    · exact Duration.days_lt d N hN1 hN h0
  · have hneg := Duration.days_neg (-d)
    rw [neg_neg] at hneg
    have h1 := Duration.le_days (-d) 0 (by norm_num) (by simp only [Nat.cast_zero, zero_mul]; omega)
    simp only [Nat.cast_zero] at h1
    constructor
    · intro _; omega
    · intro _; omega

/-- Saturation of the difference does not move it across a bound that is
itself a duration. -/
theorem Time.Sub_le_iff (t u c : Int) (h1 : -9223372036854775808 ≤ c)
    (h2 : c < 9223372036854775807) : Time.Sub t u ≤ c ↔ t - u ≤ c := by
  unfold Time.Sub minDuration maxDuration
  split_ifs with ha hb <;> dsimp only [Time, Duration] at * <;>
    constructor <;> intro h <;> omega

/-- The computed day count is negative exactly when the expiry lies one day or
more before `now`. -/
theorem daysUntilExpiry_neg_iff (now expiryTime : Int) :
    daysUntilExpiry now expiryTime < 0 ↔ expiryTime - now ≤ -86400000000000 := by
  unfold daysUntilExpiry
  rw [Duration.days_neg_iff]
  exact Time.Sub_le_iff _ _ _ (by norm_num) (by norm_num)

/-- The computed day count is below `N`, for `1 ≤ N ≤ 63`, exactly when the
expiry lies less than `N` days after `now`. -/
theorem daysUntilExpiry_lt_iff (now expiryTime : Int) (N : Nat) (hN1 : 1 ≤ N) (hN : N ≤ 63) :
    daysUntilExpiry now expiryTime < (N : Int) ↔
      expiryTime - now < (N : Int) * 86400000000000 := by
  unfold daysUntilExpiry
  rw [Duration.days_lt_iff _ N hN1 hN]
  have := Time.Sub_le_iff expiryTime now ((N : Int) * 86400000000000 - 1)
    (by omega) (by omega)
  have hD : Day = 86400000000000 := rfl
  rw [hD]
  generalize Time.Sub expiryTime now = s at *
  dsimp only [Time, Duration] at *
  omega

/-- Between zero and 63 days the computed day count is the floor of the
specification. -/
theorem daysUntilExpiry_eq_spec (now expiryTime : Int) (h0 : 0 ≤ expiryTime - now)
    (h : expiryTime - now < 63 * 86400000000000) :
    daysUntilExpiry now expiryTime = specDaysUntilExpiry now expiryTime := by
  have hspec : specDaysUntilExpiry now expiryTime = (expiryTime - now) / 86400000000000 := by
    unfold specDaysUntilExpiry
    exact Int.fdiv_eq_ediv _ (by unfold Day; norm_num)
  rw [hspec]
  obtain ⟨m, hm⟩ : ∃ m : Nat, ((expiryTime - now) / 86400000000000) = (m : Int) :=
    ⟨((expiryTime - now) / 86400000000000).toNat, (Int.toNat_of_nonneg
      (Int.ediv_nonneg h0 (by norm_num))).symm⟩
  rw [hm]
  have hm62 : m ≤ 62 := by omega
  generalize hdv : daysUntilExpiry now expiryTime = dv
  have hlo : (m : Int) ≤ dv := by
    by_contra hc
    rcases Nat.eq_zero_or_pos m with hz | hpos
    · subst hz
      have := (daysUntilExpiry_neg_iff now expiryTime).1 (by rw [hdv]; simpa using hc)
      omega
    · have := (daysUntilExpiry_lt_iff now expiryTime m hpos (by omega)).1
        (by rw [hdv]; exact not_le.1 hc)
      omega
  have hhi : dv < ((m + 1 : Nat) : Int) := by
    rw [← hdv]
    exact (daysUntilExpiry_lt_iff now expiryTime (m + 1) (by omega) (by omega)).2
      (by push_cast; omega)
  push_cast at hhi
  omega


/-- For an expiry less than one day before `now` the computed day count is
zero, while the floor of the specification is `-1`. -/
theorem daysUntilExpiry_recent_past (now expiryTime : Int)
    (h1 : -86400000000000 < expiryTime - now) (h2 : expiryTime - now < 0) :
    daysUntilExpiry now expiryTime = 0 ∧ specDaysUntilExpiry now expiryTime = -1 := by
  constructor
  · have ha : ¬ daysUntilExpiry now expiryTime < 0 := by
      rw [daysUntilExpiry_neg_iff]; omega
    have hb : daysUntilExpiry now expiryTime < ((1 : Nat) : Int) :=
      (daysUntilExpiry_lt_iff now expiryTime 1 le_rfl (by norm_num)).2 (by omega)
    simp only [Nat.cast_one] at hb
    omega
  · unfold specDaysUntilExpiry
    rw [Int.fdiv_eq_ediv _ (by unfold Day; norm_num)]
    unfold Day
    omega

/-! ## The expiry evaluator -/

/-- Unfolding of the evaluator on a record with an expiry timestamp whose
enabled flag is absent or true. -/
theorem checkCertificateExpiry_enabled (now : Time) (certName : GoString) (expiryTime : Time)
    (enabled : Option Bool) (h : enabled ≠ some false) :
    checkCertificateExpiry now certName (some ⟨some expiryTime, enabled⟩) =
      if daysUntilExpiry now expiryTime < 0 then
        (.expired certName (-daysUntilExpiry now expiryTime), true)
      else if daysUntilExpiry now expiryTime < CriticalDays then
        (.critical certName (daysUntilExpiry now expiryTime) expiryTime, true)
      else if daysUntilExpiry now expiryTime < WarningDays then
        (.warning certName (daysUntilExpiry now expiryTime) expiryTime, true)
      else (.healthy certName (daysUntilExpiry now expiryTime) expiryTime, false) := by
  simp [checkCertificateExpiry, h]

/-- Unfolding of the evaluator on a record whose enabled flag is false and
whose expiry timestamp is present. -/
theorem checkCertificateExpiry_disabled (now : Time) (certName : GoString) (expiryTime : Time) :
    checkCertificateExpiry now certName (some ⟨some expiryTime, some false⟩) =
      (.disabled certName, false) := by
  simp [checkCertificateExpiry]

/-- The flag the evaluator returns does not depend on the certificate name. -/
theorem checkCertificateExpiry_issue_name (now : Time) (n₁ n₂ : GoString)
    (attrs : Option CertificateAttributes) :
    (checkCertificateExpiry now n₁ attrs).2 = (checkCertificateExpiry now n₂ attrs).2 := by
  rcases attrs with _ | ⟨_ | e, en⟩
  · rfl
  · rfl
  · by_cases hen : en = some false
    · subst hen
      rw [checkCertificateExpiry_disabled, checkCertificateExpiry_disabled]
    · rw [checkCertificateExpiry_enabled now n₁ e en hen,
        checkCertificateExpiry_enabled now n₂ e en hen]
      split_ifs <;> rfl

/-- The line the evaluator prints always carries a classification (it is never
the aggregate line). -/
theorem checkCertificateExpiry_classified (now : Time) (certName : GoString)
    (attrs : Option CertificateAttributes) :
    (checkCertificateExpiry now certName attrs).1.classification ≠ none := by
  rcases attrs with _ | ⟨_ | e, en⟩
  · simp [checkCertificateExpiry, Line.classification]
  · simp [checkCertificateExpiry, Line.classification]
  · by_cases hen : en = some false
    · subst hen
      simp [checkCertificateExpiry_disabled, Line.classification]
    · rw [checkCertificateExpiry_enabled now certName e en hen]
      split_ifs <;> simp [Line.classification]

/-- The classification in terms of the two instants, for a record with an
expiry timestamp whose enabled flag is absent or true: EXPIRED from one whole
day past the expiry on, CRITICAL up to 7 days before it, WARNING up to 30 days
before it, healthy otherwise; the flag is true except for healthy. -/
theorem checkCertificateExpiry_by_time (now : Int) (certName : GoString) (expiryTime : Int)
    (enabled : Option Bool) (h : enabled ≠ some false) :
    (checkCertificateExpiry now certName (some ⟨some expiryTime, enabled⟩)).1.classification =
      some (if expiryTime - now ≤ -86400000000000 then .Expired
        else if expiryTime - now < 7 * 86400000000000 then .Critical
        else if expiryTime - now < 30 * 86400000000000 then .Warning
        else .Healthy) ∧
    ((checkCertificateExpiry now certName (some ⟨some expiryTime, enabled⟩)).2 = true ↔
      expiryTime - now < 30 * 86400000000000) := by
  have e0 := daysUntilExpiry_neg_iff now expiryTime
  have e7 := daysUntilExpiry_lt_iff now expiryTime 7 (by norm_num) (by norm_num)
  have e30 := daysUntilExpiry_lt_iff now expiryTime 30 (by norm_num) (by norm_num)
  simp only [Nat.cast_ofNat] at e7 e30
  rw [checkCertificateExpiry_enabled now certName expiryTime enabled h]
  unfold CriticalDays WarningDays
  simp only [e0, e7, e30]
  split_ifs <;> simp [Line.classification] <;> omega

/-- An expiry less than one day in the past is reported on the CRITICAL line
with the day count zero. -/
theorem checkCertificateExpiry_recent_past (now : Int) (certName : GoString)
    (expiryTime : Int) (enabled : Option Bool) (h : enabled ≠ some false)
    (h1 : -86400000000000 < expiryTime - now) (h2 : expiryTime - now < 0) :
    checkCertificateExpiry now certName (some ⟨some expiryTime, enabled⟩) =
      (.critical certName 0 expiryTime, true) := by
  rw [checkCertificateExpiry_enabled now certName expiryTime enabled h,
    (daysUntilExpiry_recent_past now expiryTime h1 h2).1]
  simp [CriticalDays]

/-- C1, evaluation at the failing input: a certificate whose expiry timestamp
lies one hour before `now` (enabled flag absent) has `daysUntilExpiry = 0`, is
reported on the CRITICAL line "expires in 0 days" and not on the EXPIRED line;
the returned flag is true. -/
theorem checkCertificateExpiry_expired_one_hour_ago :
    (1700000000000000000 : Time) < 1700003600000000000 ∧
    daysUntilExpiry 1700003600000000000 1700000000000000000 = 0 ∧
    checkCertificateExpiry 1700003600000000000 (goStr "web")
        (some ⟨some 1700000000000000000, none⟩) =
      (.critical (goStr "web") 0 1700000000000000000, true) ∧
    (checkCertificateExpiry 1700003600000000000 (goStr "web")
        (some ⟨some 1700000000000000000, none⟩)).1.classification ≠ some .Expired := by
  decide

/-- C2: with the expiry timestamp present and the enabled flag absent or true,
and `d` the computed `daysUntilExpiry`: `0 ≤ d < 7` gives CRITICAL and the
result true, `7 ≤ d < 30` gives WARNING and the result true, `30 ≤ d` gives
healthy and the result false; the thresholds are `CriticalDays = 7` and
`WarningDays = 30`. -/
theorem checkCertificateExpiry_thresholds (now : Time) (certName : GoString)
    (expiryTime : Time) (enabled : Option Bool)
    (h : enabled = none ∨ enabled = some true) :
    CriticalDays = 7 ∧ WarningDays = 30 ∧
    (0 ≤ daysUntilExpiry now expiryTime → daysUntilExpiry now expiryTime < 7 →
      (checkCertificateExpiry now certName (some ⟨some expiryTime, enabled⟩)).1.classification
          = some .Critical ∧
      (checkCertificateExpiry now certName (some ⟨some expiryTime, enabled⟩)).2 = true) ∧
    (7 ≤ daysUntilExpiry now expiryTime → daysUntilExpiry now expiryTime < 30 →
      (checkCertificateExpiry now certName (some ⟨some expiryTime, enabled⟩)).1.classification
          = some .Warning ∧
      (checkCertificateExpiry now certName (some ⟨some expiryTime, enabled⟩)).2 = true) ∧
    (30 ≤ daysUntilExpiry now expiryTime →
      (checkCertificateExpiry now certName (some ⟨some expiryTime, enabled⟩)).1.classification
          = some .Healthy ∧
      (checkCertificateExpiry now certName (some ⟨some expiryTime, enabled⟩)).2 = false) := by
  have hne : enabled ≠ some false := by rcases h with h | h <;> simp [h]
  rw [checkCertificateExpiry_enabled now certName expiryTime enabled hne]
  refine ⟨rfl, rfl, ?_, ?_, ?_⟩
  · intro h0 h7
    have h1 : ¬ daysUntilExpiry now expiryTime < 0 := by omega
    have h2 : daysUntilExpiry now expiryTime < CriticalDays := by unfold CriticalDays; omega
    simp [h1, h2, Line.classification]
  · intro h7 h30
    have h1 : ¬ daysUntilExpiry now expiryTime < 0 := by omega
    have h2 : ¬ daysUntilExpiry now expiryTime < CriticalDays := by unfold CriticalDays; omega
    have h3 : daysUntilExpiry now expiryTime < WarningDays := by unfold WarningDays; omega
    simp [h1, h2, h3, Line.classification]
  · intro h30
    have h1 : ¬ daysUntilExpiry now expiryTime < 0 := by omega
    have h2 : ¬ daysUntilExpiry now expiryTime < CriticalDays := by unfold CriticalDays; omega
    have h3 : ¬ daysUntilExpiry now expiryTime < WarningDays := by unfold WarningDays; omega
    simp [h1, h2, h3, Line.classification]

/-- C2 at concrete inputs: 3 days ahead is CRITICAL, 10 days ahead is WARNING,
45 days ahead is healthy. -/
theorem checkCertificateExpiry_thresholds_witness :
    ((none : Option Bool) = none ∨ (none : Option Bool) = some true) ∧
    (checkCertificateExpiry 1700000000000000000 (goStr "web")
        (some ⟨some (1700000000000000000 + 3 * Day), none⟩)).1.classification
      = some .Critical ∧
    (checkCertificateExpiry 1700000000000000000 (goStr "web")
        (some ⟨some (1700000000000000000 + 10 * Day), some true⟩)).1.classification
      = some .Warning ∧
    (checkCertificateExpiry 1700000000000000000 (goStr "web")
        (some ⟨some (1700000000000000000 + 45 * Day), none⟩)) =
      (.healthy (goStr "web") 45 (1700000000000000000 + 45 * Day), false) := by
  refine ⟨Or.inl rfl, ?_, ?_, ?_⟩
  · exact ((checkCertificateExpiry_thresholds 1700000000000000000 (goStr "web")
      (1700000000000000000 + 3 * Day) none (Or.inl rfl)).2.2.1 (by decide) (by decide)).1
  · exact ((checkCertificateExpiry_thresholds 1700000000000000000 (goStr "web")
      (1700000000000000000 + 10 * Day) (some true) (Or.inr rfl)).2.2.2.1
      (by decide) (by decide)).1
  · decide

/-- C3 as stated fails when the expiry timestamp is absent: a record with the
enabled flag false and no expiry is reported as NoExpiry, not as Disabled. -/
theorem checkCertificateExpiry_disabled_without_expiry :
    checkCertificateExpiry 1700000000000000000 (goStr "web") (some ⟨none, some false⟩) =
      (.noExpiry (goStr "web"), false) ∧
    (checkCertificateExpiry 1700000000000000000 (goStr "web")
        (some ⟨none, some false⟩)).1.classification ≠ some .Disabled := by
  decide

/-- C3 amended: for a record whose enabled flag is present and false the function
returns false whatever the expiry field holds; the classification is Disabled
for every expiry timestamp that is present (past or future), and NoExpiry when
the expiry timestamp is absent. -/
theorem checkCertificateExpiry_disabled_flag (now : Time) (certName : GoString)
    (attrs : CertificateAttributes) (h : attrs.Enabled = some false) :
    (checkCertificateExpiry now certName (some attrs)).2 = false ∧
    (∀ expiryTime, attrs.Expires = some expiryTime →
      checkCertificateExpiry now certName (some attrs) = (.disabled certName, false) ∧
      (checkCertificateExpiry now certName (some attrs)).1.classification = some .Disabled) ∧
    (attrs.Expires = none →
      (checkCertificateExpiry now certName (some attrs)).1.classification = some .NoExpiry) := by
  obtain ⟨ex, en⟩ := attrs
  simp only at h
  subst h
  cases ex with
  | none => simp [checkCertificateExpiry, Line.classification]
  | some e => simp [checkCertificateExpiry_disabled, Line.classification]

/-- C3 amended, at concrete inputs: a disabled certificate that expired ten days
ago and one that expires in a year are both reported as Disabled. -/
theorem checkCertificateExpiry_disabled_flag_witness :
    (checkCertificateExpiry 1700000000000000000 (goStr "web")
        (some ⟨some (1700000000000000000 - 10 * Day), some false⟩)).1.classification
      = some .Disabled ∧
    (checkCertificateExpiry 1700000000000000000 (goStr "web")
        (some ⟨some (1700000000000000000 + 365 * Day), some false⟩)).2 = false :=
  ⟨((checkCertificateExpiry_disabled_flag 1700000000000000000 (goStr "web")
      ⟨some (1700000000000000000 - 10 * Day), some false⟩ rfl).2.1 _ rfl).2,
   (checkCertificateExpiry_disabled_flag 1700000000000000000 (goStr "web")
      ⟨some (1700000000000000000 + 365 * Day), some false⟩ rfl).1⟩

/-- C4: when the attribute record is missing or its expiry timestamp is missing,
the line printed is "No expiry date found" (classification NoExpiry) and the
function returns false, whatever the enabled flag, the name and the time. -/
theorem checkCertificateExpiry_no_expiry (now : Time) (certName : GoString)
    (attrs : Option CertificateAttributes)
    (h : attrs = none ∨ ∃ a, attrs = some a ∧ a.Expires = none) :
    checkCertificateExpiry now certName attrs = (.noExpiry certName, false) ∧
    (checkCertificateExpiry now certName attrs).1.classification = some .NoExpiry ∧
    (checkCertificateExpiry now certName attrs).2 = false := by
  have key : checkCertificateExpiry now certName attrs = (.noExpiry certName, false) := by
    rcases h with h | ⟨⟨ex, en⟩, h, hex⟩
    · subst h; rfl
    · simp only at hex
      subst h; subst hex; rfl
  rw [key]
  exact ⟨rfl, rfl, rfl⟩

/-- C4 at concrete inputs: a missing record, and records without expiry whose
enabled flag is false, true or absent. -/
theorem checkCertificateExpiry_no_expiry_witness :
    checkCertificateExpiry 1700000000000000000 (goStr "web") none =
      (.noExpiry (goStr "web"), false) ∧
    checkCertificateExpiry 1700000000000000000 (goStr "api") (some ⟨none, some false⟩) =
      (.noExpiry (goStr "api"), false) ∧
    checkCertificateExpiry 0 [] (some ⟨none, some true⟩) = (.noExpiry [], false) ∧
    checkCertificateExpiry 0 [] (some ⟨none, none⟩) = (.noExpiry [], false) :=
  ⟨(checkCertificateExpiry_no_expiry _ _ none (Or.inl rfl)).1,
   (checkCertificateExpiry_no_expiry _ _ (some ⟨none, some false⟩)
      (Or.inr ⟨_, rfl, rfl⟩)).1,
   (checkCertificateExpiry_no_expiry _ _ (some ⟨none, some true⟩)
      (Or.inr ⟨_, rfl, rfl⟩)).1,
   (checkCertificateExpiry_no_expiry _ _ (some ⟨none, none⟩) (Or.inr ⟨_, rfl, rfl⟩)).1⟩

/-- C5, evaluation at the failing input: for an expiry one hour before `now` the
code computes `daysUntilExpiry = 0` (the fraction of `-1/24` is discarded toward
zero), whereas `floor((expiry - now) / 24h) = -1`. -/
theorem daysUntilExpiry_truncates_toward_zero :
    daysUntilExpiry 1700003600000000000 1700000000000000000 = 0 ∧
    specDaysUntilExpiry 1700003600000000000 1700000000000000000 = -1 ∧
    daysUntilExpiry 1700003600000000000 1700000000000000000 ≠
      specDaysUntilExpiry 1700003600000000000 1700000000000000000 := by
  decide

/-- Far from `now` the binary64 hour count has no room left for single
nanoseconds: one nanosecond short of 365 days counts as 365 days, where the
floor is 364. -/
theorem daysUntilExpiry_one_nanosecond_short_of_a_year :
    daysUntilExpiry 1700000000000000000 (1700000000000000000 + 365 * Day - 1) = 365 ∧
    specDaysUntilExpiry 1700000000000000000 (1700000000000000000 + 365 * Day - 1) = 364 := by
  decide

/-! ## Name extraction -/

/-- The byte right behind an initial segment. -/
theorem getElem?_behind_init (l : GoString) (x : UInt8) (r : GoString) :
    (l ++ x :: r)[l.length]? = some x := by
  rw [List.getElem?_append_right (le_refl _)]
  simp

/-- The loop started behind an initial segment without `'/'` returns the whole
string. -/
theorem getCertNameFromID.loop_no_slash (l r : GoString) (h : (47 : UInt8) ∉ l) :
    getCertNameFromID.loop (l ++ r) l.length = l ++ r := by
  induction l using List.reverseRecOn generalizing r with
  | nil => rfl
  | append_singleton l x ih =>
    have hx : x ≠ 47 := fun hx => h (by simp [hx])
    have hl : (47 : UInt8) ∉ l := fun hl => h (by simp [hl])
    have hget : (l ++ [x] ++ r)[l.length]? = some x := by
      rw [List.append_assoc]
      exact getElem?_behind_init l x r
    rw [List.length_append, List.length_singleton, getCertNameFromID.loop, hget]
    simp only [Option.some.injEq, hx, if_false]
    have := ih (x :: r) hl
    simpa using this

/-- The loop started behind `p ++ '/' :: s`, with no `'/'` in `s`, returns what
follows that `'/'`. -/
theorem getCertNameFromID.loop_last_slash (p s r : GoString) (h : (47 : UInt8) ∉ s) :
    getCertNameFromID.loop (p ++ 47 :: s ++ r) (p ++ 47 :: s).length = s ++ r := by
  induction s using List.reverseRecOn generalizing r with
  | nil =>
    have hget : (p ++ [47] ++ r)[p.length]? = some (47 : UInt8) := by
      rw [List.append_assoc]
      exact getElem?_behind_init p 47 r
    have hlen : (p ++ [(47 : UInt8)]).length = p.length + 1 := by simp
    rw [hlen, getCertNameFromID.loop, hget]
    simp
  | append_singleton s x ih =>
    have hx : x ≠ 47 := fun hx => h (by simp [hx])
    have hs : (47 : UInt8) ∉ s := fun hs => h (by simp [hs])
    have hlen : (p ++ 47 :: (s ++ [x])).length = (p ++ 47 :: s).length + 1 := by
      simp only [List.length_append, List.length_cons, List.length_nil]
      omega
    have hget : (p ++ 47 :: (s ++ [x]) ++ r)[(p ++ 47 :: s).length]? = some x := by
      have : p ++ 47 :: (s ++ [x]) ++ r = (p ++ 47 :: s) ++ x :: r := by simp
      rw [this]
      exact getElem?_behind_init _ x r
    rw [hlen, getCertNameFromID.loop, hget]
    simp only [Option.some.injEq, hx, if_false]
    have := ih (x :: r) hs
    simpa using this

/-- A string containing `'/'` splits at its last `'/'`. -/
theorem exists_last_slash (id : GoString) (h : (47 : UInt8) ∈ id) :
    ∃ p s, id = p ++ 47 :: s ∧ (47 : UInt8) ∉ s := by
  induction id with
  | nil => simp at h
  | cons x t ih =>
    by_cases ht : (47 : UInt8) ∈ t
    · obtain ⟨p, s, hps, hs⟩ := ih ht
      exact ⟨x :: p, s, by simp [hps], hs⟩
    · have hx : x = 47 := by
        rcases List.mem_cons.1 h with h | h
        · exact h.symm
        · exact absurd h ht
      exact ⟨[], t, by simp [hx], ht⟩

/-- C6: for an identifier that contains `'/'` the result is what follows its
last `'/'` (`id = p ++ "/" ++ result` for some `p`, and the result contains no
`'/'`); an identifier without `'/'` is returned unchanged; and the identifier
`https://vault.example/certificates/foo/v1` gives `v1`. -/
theorem getCertNameFromID_spec (id : GoString) :
    ((47 : UInt8) ∈ id →
      ∃ p, id = p ++ goStr "/" ++ getCertNameFromID id ∧ (47 : UInt8) ∉ getCertNameFromID id) ∧
    ((47 : UInt8) ∉ id → getCertNameFromID id = id) ∧
    goStr "/" = [47] ∧
    getCertNameFromID (goStr "https://vault.example/certificates/foo/v1") = goStr "v1" := by
  refine ⟨?_, ?_, by decide, by decide⟩
  · intro h
    obtain ⟨p, s, hps, hs⟩ := exists_last_slash id h
    have hr : getCertNameFromID id = s := by
      have := getCertNameFromID.loop_last_slash p s [] hs
      simp only [List.append_nil] at this
      rw [getCertNameFromID, hps]
      exact this
    refine ⟨p, ?_, by rw [hr]; exact hs⟩
    rw [hr, hps]
    have : goStr "/" = [47] := by decide
    rw [this]; simp
  · intro h
    have := getCertNameFromID.loop_no_slash id [] h
    simpa [getCertNameFromID] using this

/-! ## Configuration -/

/-- C7: `validateConfig` returns an error exactly when one of `VaultURI`,
`ClientID`, `TenantID`, `ClientSecret` is empty; `CertName` has no influence on
the result; and a configuration in which only `ClientSecret` is empty is
rejected with the error naming `AZURE_CLIENT_SECRET`. -/
theorem validateConfig_spec (config : Config) :
    ((∃ msg, validateConfig config = .error msg) ↔
      (config.VaultURI = [] ∨ config.ClientID = [] ∨ config.TenantID = [] ∨
        config.ClientSecret = [])) ∧
    (validateConfig config = .ok () ↔
      (config.VaultURI ≠ [] ∧ config.ClientID ≠ [] ∧ config.TenantID ≠ [] ∧
        config.ClientSecret ≠ [])) ∧
    (∀ certName, validateConfig { config with CertName := certName } = validateConfig config) ∧
    (config.VaultURI ≠ [] → config.ClientID ≠ [] → config.TenantID ≠ [] →
      config.ClientSecret = [] →
      validateConfig config = .error "AZURE_CLIENT_SECRET is required") := by
  obtain ⟨v, c, t, sec, n⟩ := config
  refine ⟨?_, ?_, fun _ => rfl, ?_⟩
  · unfold validateConfig
    simp only
    split_ifs <;> simp_all
  · unfold validateConfig
    simp only
    split_ifs <;> simp_all
  · intro h1 h2 h3 h4
    simp only at h1 h2 h3 h4
    simp [validateConfig, h1, h2, h3, h4]

/-- C7 at concrete inputs: only the client secret missing is an error naming
`AZURE_CLIENT_SECRET`, and a complete configuration with an empty certificate
name is accepted. -/
theorem validateConfig_spec_witness :
    validateConfig ⟨goStr "https://kv.vault.azure.net", goStr "client", goStr "tenant", [],
        goStr "web"⟩ = .error "AZURE_CLIENT_SECRET is required" ∧
    validateConfig ⟨goStr "https://kv.vault.azure.net", goStr "client", goStr "tenant",
        goStr "secret", []⟩ = .ok () :=
  ⟨(validateConfig_spec ⟨goStr "https://kv.vault.azure.net", goStr "client", goStr "tenant",
      [], goStr "web"⟩).2.2.2 (by decide) (by decide) (by decide) rfl,
   (validateConfig_spec ⟨goStr "https://kv.vault.azure.net", goStr "client", goStr "tenant",
      goStr "secret", []⟩).2.1.2 (by decide)⟩

/-- C9: each of the five fields `loadConfig` returns is the flag value when that
is non-empty, and otherwise the value of the corresponding environment
variable. -/
theorem loadConfig_spec (flags : Config) (getenv : String → GoString) :
    (loadConfig flags getenv).VaultURI =
      (if flags.VaultURI ≠ [] then flags.VaultURI else getenv "AZURE_KEY_VAULT_URI") ∧
    (loadConfig flags getenv).ClientID =
      (if flags.ClientID ≠ [] then flags.ClientID else getenv "AZURE_CLIENT_ID") ∧
    (loadConfig flags getenv).TenantID =
      (if flags.TenantID ≠ [] then flags.TenantID else getenv "AZURE_TENANT_ID") ∧
    (loadConfig flags getenv).ClientSecret =
      (if flags.ClientSecret ≠ [] then flags.ClientSecret
        else getenv "AZURE_CLIENT_SECRET") ∧
    (loadConfig flags getenv).CertName =
      (if flags.CertName ≠ [] then flags.CertName else getenv "AZURE_KEYVAULT_CERT_NAME") := by
  obtain ⟨v, c, t, sec, n⟩ := flags
  by_cases hv : v = [] <;> by_cases hc : c = [] <;> by_cases ht : t = [] <;>
    by_cases hs : sec = [] <;> by_cases hn : n = [] <;>
    simp [loadConfig, hv, hc, ht, hs, hn]

/-! ## Listing loop -/

/-- The nested loops over pages and entries visit the entries of all pages in
order. -/
theorem foldl_pages (f : LoopState → CertificateItem → LoopState)
    (pages : List (List CertificateItem)) (st : LoopState) :
    pages.foldl (fun st page => page.foldl f st) st = pages.flatten.foldl f st := by
  induction pages generalizing st with
  | nil => rfl
  | cons page rest ih => simp [List.foldl_append, ih]

/-- One entry: the counter advances by one. -/
theorem checkEntry_visited (clock : Nat → Time) (st : LoopState) (cert : CertificateItem) :
    (checkEntry clock st cert).visited = st.visited + 1 := by
  obtain ⟨_ | id, _ | attrs⟩ := cert <;> rfl

/-- One entry: `hasIssues` is set exactly when it was set before or the entry has
an identifier and the evaluator returns true on its attributes. -/
theorem checkEntry_hasIssues (clock : Nat → Time) (st : LoopState) (cert : CertificateItem) :
    (checkEntry clock st cert).hasIssues = true ↔
      st.hasIssues = true ∨ ∃ id attrs, cert = ⟨some id, attrs⟩ ∧
        (checkCertificateExpiry (clock st.visited) (getCertNameFromID id) attrs).2 = true := by
  obtain ⟨_ | id, _ | attrs⟩ := cert
  · simp [checkEntry]
  · simp [checkEntry]
  · simp [checkEntry, checkCertificateExpiry]
  · simp only [checkEntry]
    cases h : (checkCertificateExpiry (clock st.visited) (getCertNameFromID id) (some attrs)).2
    · simp [h]
    · simp only [if_true, true_iff]
      exact Or.inr ⟨id, some attrs, rfl, h⟩

/-- One entry: the lines printed so far stay classified. -/
theorem checkEntry_out (clock : Nat → Time) (st : LoopState) (cert : CertificateItem)
    (h : ∀ line ∈ st.out, line.classification ≠ none) :
    ∀ line ∈ (checkEntry clock st cert).out, line.classification ≠ none := by
  obtain ⟨_ | id, _ | attrs⟩ := cert
  · exact h
  · exact h
  · exact h
  · intro line hl
    simp only [checkEntry, List.mem_append, List.mem_singleton] at hl
    rcases hl with hl | hl
    · exact h line hl
    · rw [hl]; exact checkCertificateExpiry_classified _ _ _

/-- The inner loop over a list of entries. -/
theorem foldl_checkEntry (clock : Nat → Time) (entries : List CertificateItem)
    (st : LoopState) :
    ((entries.foldl (checkEntry clock) st).hasIssues = true ↔
      st.hasIssues = true ∨ ∃ k id attrs, entries[k]? = some ⟨some id, attrs⟩ ∧
        (checkCertificateExpiry (clock (st.visited + k)) (getCertNameFromID id) attrs).2
          = true) ∧
    ((∀ line ∈ st.out, line.classification ≠ none) →
      ∀ line ∈ (entries.foldl (checkEntry clock) st).out, line.classification ≠ none) := by
  induction entries generalizing st with
  | nil => simp
  | cons x t ih =>
    rw [List.foldl_cons]
    obtain ⟨ih1, ih2⟩ := ih (checkEntry clock st x)
    refine ⟨?_, fun h => ih2 (checkEntry_out clock st x h)⟩
    rw [ih1, checkEntry_hasIssues, checkEntry_visited]
    constructor
    · rintro ((h | ⟨id, attrs, hx, hc⟩) | ⟨k, id, attrs, hk, hc⟩)
      · exact Or.inl h
      · exact Or.inr ⟨0, id, attrs, by simp [hx], by simpa using hc⟩
      · refine Or.inr ⟨k + 1, id, attrs, by simpa using hk, ?_⟩
        have : st.visited + (k + 1) = st.visited + 1 + k := by omega
        rw [this]; exact hc
    · rintro (h | ⟨k, id, attrs, hk, hc⟩)
      · exact Or.inl (Or.inl h)
      · cases k with
        | zero =>
          refine Or.inl (Or.inr ⟨id, attrs, ?_, by simpa using hc⟩)
          simpa using hk
        | succ k =>
          refine Or.inr ⟨k, id, attrs, by simpa using hk, ?_⟩
          have : st.visited + 1 + k = st.visited + (k + 1) := by omega
          rw [this]; exact hc

/-- The aggregate line is printed exactly when no visited entry with an
identifier makes the evaluator return true. -/
theorem allValid_mem_iff (clock : Nat → Time) (pages : List (List CertificateItem)) :
    Line.allValid WarningDays ∈ checkAllCertificates clock pages ↔
      ∀ k id attrs, pages.flatten[k]? = some ⟨some id, attrs⟩ →
        (checkCertificateExpiry (clock k) (getCertNameFromID id) attrs).2 = false := by
  obtain ⟨h1, h2⟩ := foldl_checkEntry clock pages.flatten
    { hasIssues := false, visited := 0, out := [] }
  have h2 := h2 (by simp)
  simp only [checkAllCertificates, foldl_pages]
  cases hi : (pages.flatten.foldl (checkEntry clock)
      { hasIssues := false, visited := 0, out := [] }).hasIssues
  · simp only [Bool.not_false, if_true, List.mem_append, List.mem_singleton, or_true, true_iff]
    intro k id attrs hk
    by_contra hc
    have : (pages.flatten.foldl (checkEntry clock)
        { hasIssues := false, visited := 0, out := [] }).hasIssues = true :=
      h1.2 (Or.inr ⟨k, id, attrs, hk, by simpa using hc⟩)
    rw [hi] at this
    exact Bool.noConfusion this
  · simp only [Bool.not_true, Bool.false_eq_true, if_false]
    constructor
    · intro hmem
      exact absurd rfl (h2 _ hmem)
    · intro hall
      rcases h1.1 hi with h | ⟨k, id, attrs, hk, hc⟩
      · exact Bool.noConfusion h
      · have := hall k id attrs (by simpa using hk)
        simp only [Nat.zero_add] at hc
        rw [this] at hc
        exact Bool.noConfusion hc

set_option maxRecDepth 4000 in
/-- C8 as stated fails for a listed entry without identifier: the loop skips
it, so the aggregate line is printed although the evaluator returns true on
the attributes of that entry (it expired ten days before). -/
theorem checkAllCertificates_skips_entry_without_id :
    checkAllCertificates (fun _ => 1700000000000000000)
        [[⟨none, some ⟨some (1700000000000000000 - 10 * Day), none⟩⟩]] =
      [.allValid WarningDays] ∧
    checkCertificateExpiry 1700000000000000000 []
        (some ⟨some (1700000000000000000 - 10 * Day), none⟩) =
      (.expired [] 10, true) := by
  refine ⟨by decide, by decide⟩

/-- C8 amended: the aggregate line is printed if and only if
`checkCertificateExpiry` returns false for every listed entry that has an
identifier (entries without identifier are skipped), `clock k` being the time at
which the entry at position `k` is checked.  Hence it is printed for a vault
without certificates, and it is not printed for a listing of three certificates
with identifiers of which one is expired (its expiry lies before the time it is
checked and it is not disabled), one is healthy and one is disabled, in any
order and on any pages. -/
theorem checkAllCertificates_aggregate (clock : Nat → Int)
    (pages : List (List CertificateItem)) :
    (Line.allValid WarningDays ∈ checkAllCertificates clock pages ↔
      ∀ k id attrs, pages.flatten[k]? = some ⟨some id, attrs⟩ →
        (checkCertificateExpiry (clock k) (getCertNameFromID id) attrs).2 = false) ∧
    (pages.flatten = [] →
      checkAllCertificates clock pages = [.allValid WarningDays] ∧
      Line.allValid WarningDays ∈ checkAllCertificates clock pages) ∧
    (∀ (kE kH kD : Nat) (idE idH idD : GoString) (expE expH : Int) (enE enH : Option Bool)
        (expD : Option Time),
      pages.flatten.length = 3 →
      pages.flatten[kE]? = some ⟨some idE, some ⟨some expE, enE⟩⟩ →
      enE ≠ some false → expE < clock kE →
      pages.flatten[kH]? = some ⟨some idH, some ⟨some expH, enH⟩⟩ →
      enH ≠ some false → clock kH + 30 * Day ≤ expH →
      pages.flatten[kD]? = some ⟨some idD, some ⟨expD, some false⟩⟩ →
      Line.allValid WarningDays ∉ checkAllCertificates clock pages) := by
  refine ⟨allValid_mem_iff clock pages, ?_, ?_⟩
  · intro h
    have hout : checkAllCertificates clock pages = [.allValid WarningDays] := by
      simp [checkAllCertificates, foldl_pages, h]
    rw [hout]
    exact ⟨rfl, by simp⟩
  · intro kE kH kD idE idH idD expE expH enE enH expD _ hE henE hexp _ _ _ _ hmem
    have hfalse := (allValid_mem_iff clock pages).1 hmem kE idE _ hE
    have htrue := (checkCertificateExpiry_by_time (clock kE) (getCertNameFromID idE) expE
      enE henE).2.2 (by omega)
    rw [hfalse] at htrue
    exact Bool.noConfusion htrue

set_option maxRecDepth 4000 in
/-- C8 amended, at concrete inputs: a listing of one empty page prints only the
aggregate line; a listing of a certificate that expired one hour before, a
healthy and a disabled certificate does not print the aggregate line. -/
theorem checkAllCertificates_aggregate_witness :
    checkAllCertificates (fun _ => 1700003600000000000) [[]] = [.allValid WarningDays] ∧
    Line.allValid WarningDays ∉ checkAllCertificates (fun _ => 1700003600000000000)
        [[⟨some (goStr "https://vault.example/certificates/old"),
            some ⟨some 1700000000000000000, none⟩⟩],
         [⟨some (goStr "https://vault.example/certificates/web"),
            some ⟨some (1700003600000000000 + 90 * Day), some true⟩⟩,
          ⟨some (goStr "https://vault.example/certificates/off"),
            some ⟨none, some false⟩⟩]] :=
  ⟨((checkAllCertificates_aggregate (fun _ => 1700003600000000000) [[]]).2.1 rfl).1,
   (checkAllCertificates_aggregate (fun _ => 1700003600000000000) _).2.2 0 1 2
      (goStr "https://vault.example/certificates/old")
      (goStr "https://vault.example/certificates/web")
      (goStr "https://vault.example/certificates/off")
      1700000000000000000 (1700003600000000000 + 90 * Day) none (some true) none
      rfl rfl (by decide) (by decide) rfl (by decide) (by decide) rfl⟩

set_option maxRecDepth 4000 in
/-- C10 as stated fails: the aggregate line is printed for a listing of a
disabled certificate that expired ten days before, for a certificate without
expiry timestamp, for an entry without identifier that expired, and for a
certificate that expires exactly 30 days (not more) after the current time. -/
theorem checkAllCertificates_allValid_not_all_beyond_30_days :
    checkAllCertificates (fun _ => 1700000000000000000)
        [[⟨some (goStr "https://vault.example/certificates/off"),
            some ⟨some (1700000000000000000 - 10 * Day), some false⟩⟩]] =
      [.disabled (goStr "off"), .allValid WarningDays] ∧
    ¬ (1700000000000000000 + 30 * Day < 1700000000000000000 - 10 * Day) ∧
    checkAllCertificates (fun _ => 1700000000000000000)
        [[⟨some (goStr "https://vault.example/certificates/web"), some ⟨none, none⟩⟩]] =
      [.noExpiry (goStr "web"), .allValid WarningDays] ∧
    checkAllCertificates (fun _ => 1700000000000000000)
        [[⟨none, some ⟨some (1700000000000000000 - 10 * Day), none⟩⟩]] =
      [.allValid WarningDays] ∧
    checkAllCertificates (fun _ => 1700000000000000000)
        [[⟨some (goStr "https://vault.example/certificates/web"),
            some ⟨some (1700000000000000000 + 30 * Day), none⟩⟩]] =
      [.healthy (goStr "web") 30 (1700000000000000000 + 30 * Day), .allValid WarningDays] ∧
    ¬ (1700000000000000000 + 30 * Day < 1700000000000000000 + 30 * Day) := by
  refine ⟨by decide, by decide, by decide, by decide, by decide, by decide⟩

/-- C10 amended: whenever the aggregate line is printed, every listed entry that
has an identifier and an attribute record with an expiry timestamp, and whose
enabled flag is absent or true, has a computed `daysUntilExpiry` of at least
`WarningDays = 30`, and its expiry timestamp is at least 30 days after the time
`clock k` at which it was checked. -/
theorem checkAllCertificates_allValid_sound (clock : Nat → Int)
    (pages : List (List CertificateItem))
    (h : Line.allValid WarningDays ∈ checkAllCertificates clock pages) :
    ∀ (k : Nat) (id : GoString) (expiryTime : Int) (enabled : Option Bool),
      pages.flatten[k]? = some ⟨some id, some ⟨some expiryTime, enabled⟩⟩ →
      enabled ≠ some false →
      WarningDays ≤ daysUntilExpiry (clock k) expiryTime ∧
      clock k + 30 * Day ≤ expiryTime := by
  intro k id expiryTime enabled hk hen
  have hfalse := (allValid_mem_iff clock pages).1 h k id _ hk
  have hnot : ¬ (expiryTime - clock k < 30 * 86400000000000) := by
    intro hlt
    have := (checkCertificateExpiry_by_time (clock k) (getCertNameFromID id) expiryTime
      enabled hen).2.2 hlt
    rw [hfalse] at this
    exact Bool.noConfusion this
  have e30 := daysUntilExpiry_lt_iff (clock k) expiryTime 30 (by norm_num) (by norm_num)
  simp only [Nat.cast_ofNat] at e30
  constructor
  · unfold WarningDays
    by_contra hc
    exact hnot (e30.1 (not_le.1 hc))
  · unfold Day
    omega

set_option maxRecDepth 4000 in
/-- C10 amended, at a concrete input: a listing of one certificate that expires
90 days ahead prints the aggregate line, and that certificate counts 90 days. -/
theorem checkAllCertificates_allValid_sound_witness :
    Line.allValid WarningDays ∈ checkAllCertificates (fun _ => 1700000000000000000)
        [[⟨some (goStr "https://vault.example/certificates/web"),
            some ⟨some (1700000000000000000 + 90 * Day), none⟩⟩]] ∧
    WarningDays ≤ daysUntilExpiry 1700000000000000000 (1700000000000000000 + 90 * Day) ∧
    (1700000000000000000 : Int) + 30 * Day ≤ 1700000000000000000 + 90 * Day :=
  ⟨by decide,
   checkAllCertificates_allValid_sound (fun _ => 1700000000000000000)
      [[⟨some (goStr "https://vault.example/certificates/web"),
          some ⟨some (1700000000000000000 + 90 * Day), none⟩⟩]] (by decide) 0
      (goStr "https://vault.example/certificates/web") (1700000000000000000 + 90 * Day) none
      rfl (by decide)⟩

end CertWatchman
